import Mathlib

/-!
Verification of the Deep CFR solving engine described by this repository's
specification.  The repository's own Python sources (`main.py`,
`run_deep_cfr.py`) are thin drivers around a `deep_cfr_tf2` solver module
whose source is not present; following the specification, the solver's data
model and operations (reservoir buffers, regret matching, traversal,
solve loop, policy queries) are modelled here from the spec's words, while
the `progress` callback of `run_deep_cfr.py` is embedded from its source.
All arithmetic is over `ℚ` (the spec's floating tolerances hold exactly).
-/

namespace DeepCFR

/-- Modelled from the spec: error taxonomy of §7 (the `deep_cfr_tf2` module
holding these is not in the sources). Only the constructors the claims need. -/
inductive SolverError where
  | emptyBuffer
  | invariantError
  | numericInstability
  deriving Repr, DecidableEq

/-- Modelled from the spec (§3): `AdvantageRecord
\x7b encoded_infostate, per_action_regret_estimate[], iteration_weight,
acting_player \x7d`. -/
structure AdvantageRecord where
  infostate : List ℚ
  regrets : List ℚ
  iteration : Nat
  player : Nat
  deriving Repr, DecidableEq

/-- Modelled from the spec (§3): `StrategyRecord
\x7b encoded_infostate, per_action_probability[], iteration_weight \x7d`. -/
structure StrategyRecord where
  infostate : List ℚ
  strategy : List ℚ
  iteration : Nat
  deriving Repr, DecidableEq

/-- Modelled from the spec (§3): `ReservoirBuffer
\x7b capacity, records[], seen_count \x7d` (the `deep_cfr_tf2` module holding
it is not in the sources). -/
structure ReservoirBuffer (α : Type) where
  capacity : Nat
  records : List α
  seen_count : Nat
  deriving Repr, DecidableEq

/-- A fresh, empty reservoir buffer of the given capacity. -/
def ReservoirBuffer.empty (α : Type) (capacity : Nat) : ReservoirBuffer α :=
  ⟨capacity, [], 0⟩

/-- Modelled from the spec (§4.2): `offer(record)` — increments `seen_count`;
appends while below capacity; otherwise the caller-supplied uniform draw
`idx` (drawn from `[0, seen_count)` for the updated count, per the invariant
`capacity/seen_count` of §3) overwrites `records[idx]` when `idx < capacity`
and discards the record otherwise. -/
def ReservoirBuffer.offer {α : Type} (buf : ReservoirBuffer α) (record : α)
    (idx : Nat) : ReservoirBuffer α :=
  if buf.records.length < buf.capacity then
    { buf with records := buf.records ++ [record], seen_count := buf.seen_count + 1 }
  else if idx < buf.capacity then
    { buf with records := buf.records.set idx record, seen_count := buf.seen_count + 1 }
  else
    { buf with seen_count := buf.seen_count + 1 }

/-- Fold a sequence of `(record, draw)` offers into a buffer. -/
def ReservoirBuffer.offerAll {α : Type} (buf : ReservoirBuffer α)
    (xs : List (α × Nat)) : ReservoirBuffer α :=
  xs.foldl (fun b p => b.offer p.1 p.2) buf

/-- Modelled from the spec (§4.2): `sample_batch(n)` draws `n` records
uniformly with replacement using the caller-supplied draws; an empty buffer
fails with `EmptyBufferError`. -/
def ReservoirBuffer.sample_batch {α : Type} (buf : ReservoirBuffer α)
    (n : Nat) (draw : Nat → Nat) : Except SolverError (List α) :=
  if h : buf.records.length = 0 then
    .error .emptyBuffer
  else
    .ok ((List.range n).map (fun i =>
      buf.records.get ⟨draw i % buf.records.length, Nat.mod_lt _ (Nat.pos_of_ne_zero h)⟩))

lemma ReservoirBuffer.offer_length_le {α : Type} (buf : ReservoirBuffer α)
    (record : α) (idx : Nat) (h : buf.records.length ≤ buf.capacity) :
    (buf.offer record idx).records.length ≤ buf.capacity := by
  unfold ReservoirBuffer.offer
  split
  · simpa using Nat.succ_le_of_lt (by assumption)
  · split
    · simpa using h
    · simpa using h

lemma ReservoirBuffer.offer_capacity {α : Type} (buf : ReservoirBuffer α)
    (record : α) (idx : Nat) :
    (buf.offer record idx).capacity = buf.capacity := by
  unfold ReservoirBuffer.offer
  split
  · rfl
  · split <;> rfl

lemma ReservoirBuffer.offerAll_length_le {α : Type} (buf : ReservoirBuffer α)
    (xs : List (α × Nat)) (h : buf.records.length ≤ buf.capacity) :
    (buf.offerAll xs).records.length ≤ (buf.offerAll xs).capacity := by
  induction xs generalizing buf with
  | nil => simpa [ReservoirBuffer.offerAll]
  | cons p rest ih =>
      have h1 := buf.offer_length_le p.1 p.2 h
      have h2 := buf.offer_capacity p.1 p.2
      have := ih (buf.offer p.1 p.2) (by rw [h2]; exact h1)
      simpa [ReservoirBuffer.offerAll] using this

/-! ### Finite weighted distributions

The spec's probabilistic invariant (§3, §8) is settled over an exact,
finitely supported distribution monad: a list of outcome/weight pairs with
rational weights.  `prob` sums the weights of the outcomes satisfying a
predicate. -/

/-- A finitely supported distribution as a list of weighted outcomes. -/
abbrev Dist (α : Type) := List (α × ℚ)

/-- The point distribution. -/
def Dist.pure {α : Type} (a : α) : Dist α := [(a, 1)]

/-- Monadic bind: weights multiply along each branch. -/
def Dist.bind {α β : Type} (d : Dist α) (f : α → Dist β) : Dist β :=
  d.flatMap (fun p => (f p.1).map (fun q => (q.1, p.2 * q.2)))

/-- Probability of an event: total weight of outcomes satisfying `p`. -/
def Dist.prob {α : Type} (d : Dist α) (p : α → Bool) : ℚ :=
  (d.map (fun q => if p q.1 then q.2 else 0)).sum

/-- Total weight of a distribution. -/
def Dist.wsum {α : Type} (d : Dist α) : ℚ :=
  (d.map Prod.snd).sum

/-- The uniform distribution on `\x7b0, …, n−1\x7d`. -/
def uniformDraw (n : Nat) : Dist Nat :=
  (List.range n).map (fun i => (i, (n : ℚ)⁻¹))

lemma Dist.prob_nil {α : Type} (p : α → Bool) : Dist.prob ([] : Dist α) p = 0 := rfl

lemma Dist.prob_cons {α : Type} (q : α × ℚ) (d : Dist α) (p : α → Bool) :
    Dist.prob (q :: d) p = (if p q.1 then q.2 else 0) + d.prob p := by
  simp [Dist.prob]

lemma Dist.prob_append {α : Type} (d₁ d₂ : Dist α) (p : α → Bool) :
    Dist.prob (d₁ ++ d₂) p = d₁.prob p + d₂.prob p := by
  simp [Dist.prob]

lemma Dist.prob_pure {α : Type} (a : α) (p : α → Bool) :
    (Dist.pure a).prob p = if p a then 1 else 0 := by
  simp [Dist.prob, Dist.pure]

lemma Dist.prob_scale {α : Type} (d : Dist α) (w : ℚ) (p : α → Bool) :
    Dist.prob (d.map (fun q => (q.1, w * q.2))) p = w * d.prob p := by
  induction d with
  | nil => simp [Dist.prob]
  | cons q rest ih =>
      simp only [List.map_cons, Dist.prob_cons, ih]
      by_cases h : p q.1 <;> simp [h] <;> ring

lemma Dist.prob_bind {α β : Type} (d : Dist α) (f : α → Dist β) (p : β → Bool) :
    (d.bind f).prob p = (d.map (fun q => q.2 * (f q.1).prob p)).sum := by
  induction d with
  | nil => simp [Dist.bind, Dist.prob]
  | cons q rest ih =>
      simp only [Dist.bind, List.flatMap_cons, List.map_cons, List.sum_cons]
      rw [Dist.prob_append, Dist.prob_scale]
      congr 1

lemma Dist.wsum_cons {α : Type} (q : α × ℚ) (d : Dist α) :
    Dist.wsum (q :: d) = q.2 + d.wsum := by
  simp [Dist.wsum]

lemma Dist.wsum_scale {α : Type} (d : Dist α) (w : ℚ) :
    Dist.wsum (d.map (fun q => (q.1, w * q.2))) = w * d.wsum := by
  induction d with
  | nil => simp [Dist.wsum]
  | cons q rest ih =>
      simp only [List.map_cons, Dist.wsum_cons, ih]
      ring

lemma Dist.wsum_bind {α β : Type} (d : Dist α) (f : α → Dist β) :
    (d.bind f).wsum = (d.map (fun q => q.2 * (f q.1).wsum)).sum := by
  induction d with
  | nil => simp [Dist.bind, Dist.wsum]
  | cons q rest ih =>
      simp only [Dist.bind, List.flatMap_cons, List.map_cons, List.sum_cons]
      rw [show Dist.wsum ((f q.1).map (fun x => (x.1, q.2 * x.2)) ++
            rest.flatMap (fun p => (f p.1).map (fun x => (x.1, p.2 * x.2)))) =
          Dist.wsum ((f q.1).map (fun x => (x.1, q.2 * x.2))) +
          Dist.wsum (rest.flatMap (fun p => (f p.1).map (fun x => (x.1, p.2 * x.2)))) by
        simp [Dist.wsum]]
      rw [Dist.wsum_scale]
      congr 1

lemma Dist.wsum_pure {α : Type} (a : α) : (Dist.pure a).wsum = 1 := by
  simp [Dist.wsum, Dist.pure]

lemma uniformDraw_wsum (n : Nat) (hn : 0 < n) : (uniformDraw n).wsum = 1 := by
  have hne : (n : ℚ) ≠ 0 := Nat.cast_ne_zero.mpr (Nat.pos_iff_ne_zero.mp hn)
  simp only [uniformDraw, Dist.wsum, List.map_map]
  have h1 : (Prod.snd ∘ fun i : Nat => (i, (n : ℚ)⁻¹)) = fun _ => (n : ℚ)⁻¹ := rfl
  rw [h1, List.map_const', List.sum_replicate, List.length_range, nsmul_eq_mul,
    mul_inv_cancel₀ hne]

/-! ### Counting surviving draws for one `offer` on a full buffer -/

lemma not_mem_set {l : List Nat} {d r i : Nat} (hil : i ∉ l) (hir : i ≠ r) :
    i ∉ l.set d r :=
  fun h => (List.mem_or_eq_of_mem_set h).elim hil hir

lemma countP_range_set_mem (r i : Nat) :
    ∀ l : List Nat, l.Nodup → i ∈ l → i ≠ r →
      (List.range l.length).countP (fun d => decide (i ∈ l.set d r)) = l.length - 1 := by
  intro l
  induction l with
  | nil => intro _ h; simp at h
  | cons a t ih =>
      intro hnd hmem hir
      have hnd' : t.Nodup := (List.nodup_cons.mp hnd).2
      have hna : a ∉ t := (List.nodup_cons.mp hnd).1
      rw [List.length_cons, List.range_succ_eq_map, List.countP_cons, List.countP_map]
      by_cases hia : i = a
      · subst hia
        have hit : i ∉ t := hna
        have h0 : (decide (i ∈ (i :: t).set 0 r)) = false := by
          simp [List.set, hir, hit]
        have hall : ∀ d ∈ List.range t.length,
            ((fun d => decide (i ∈ (i :: t).set d r)) ∘ Nat.succ) d = true := by
          intro d _
          simp [List.set]
        rw [List.countP_eq_length.mpr hall, h0]
        simp
      · have hit : i ∈ t := by
          rcases List.mem_cons.mp hmem with h | h
          · exact absurd h hia
          · exact h
        have h0 : (decide (i ∈ (a :: t).set 0 r)) = true := by
          simp [List.set, hit]
        have hcg : ∀ d ∈ List.range t.length,
            (((fun d => decide (i ∈ (a :: t).set d r)) ∘ Nat.succ) d = true) ↔
              ((fun d => decide (i ∈ t.set d r)) d = true) := by
          intro d _
          simp [List.set, hia]
        rw [List.countP_congr hcg, ih hnd' hit hir, h0]
        have : 0 < t.length := List.length_pos.mpr (by rintro rfl; simp at hit)
        simp
        omega

lemma countP_range_set_self (r : Nat) (l : List Nat) :
    (List.range l.length).countP (fun d => decide (r ∈ l.set d r)) = l.length := by
  have h : (List.range l.length).countP (fun d => decide (r ∈ l.set d r)) =
      (List.range l.length).length :=
    List.countP_eq_length.mpr (fun d hd => by
      simpa using List.mem_set l d (List.mem_range.mp hd) r)
  rw [h, List.length_range]

/-- One full-buffer `offer` of record `r`: a record `i ≠ r` already in the
buffer survives `seen_count` of the `seen_count + 1` equally likely draws. -/
lemma countP_offer_mem (buf : ReservoirBuffer Nat) (r i : Nat)
    (hfull : buf.records.length = buf.capacity)
    (hnd : buf.records.Nodup) (hil : i ∈ buf.records) (hir : i ≠ r)
    (hcn : buf.capacity ≤ buf.seen_count) :
    (List.range (buf.seen_count + 1)).countP
      (fun d => decide (i ∈ (buf.offer r d).records)) = buf.seen_count := by
  have hnlt : ¬ buf.records.length < buf.capacity := by omega
  have hcpos : 0 < buf.capacity := by
    have : 0 < buf.records.length := List.length_pos.mpr (by rintro h; rw [h] at hil; simp at hil)
    omega
  have hsplit : buf.seen_count + 1 = buf.capacity + (buf.seen_count + 1 - buf.capacity) := by
    omega
  rw [hsplit, List.range_add, List.countP_append, List.countP_map]
  have h1 : (List.range buf.capacity).countP
      (fun d => decide (i ∈ (buf.offer r d).records)) = buf.capacity - 1 := by
    have hcg : ∀ d ∈ List.range buf.capacity,
        ((fun d => decide (i ∈ (buf.offer r d).records)) d = true) ↔
          ((fun d => decide (i ∈ buf.records.set d r)) d = true) := by
      intro d hd
      have hdc : d < buf.capacity := List.mem_range.mp hd
      simp [ReservoirBuffer.offer, hnlt, hdc]
    rw [List.countP_congr hcg, ← hfull, countP_range_set_mem r i buf.records hnd hil hir, hfull]
  have h2 : (List.range (buf.seen_count + 1 - buf.capacity)).countP
      ((fun d => decide (i ∈ (buf.offer r d).records)) ∘ (buf.capacity + ·)) =
        buf.seen_count + 1 - buf.capacity := by
    have h : (List.range (buf.seen_count + 1 - buf.capacity)).countP
        ((fun d => decide (i ∈ (buf.offer r d).records)) ∘ (buf.capacity + ·)) =
          (List.range (buf.seen_count + 1 - buf.capacity)).length :=
      List.countP_eq_length.mpr (fun d _ => by
        have hnd2 : ¬ buf.capacity + d < buf.capacity := by omega
        simpa [ReservoirBuffer.offer, hnlt, hnd2] using hil)
    rw [h, List.length_range]
  rw [h1, h2]
  omega

/-- One full-buffer `offer`: the new record is inserted for exactly
`capacity` of the `seen_count + 1` equally likely draws. -/
lemma countP_offer_new (buf : ReservoirBuffer Nat) (r : Nat)
    (hfull : buf.records.length = buf.capacity)
    (hr : r ∉ buf.records)
    (hcn : buf.capacity ≤ buf.seen_count) :
    (List.range (buf.seen_count + 1)).countP
      (fun d => decide (r ∈ (buf.offer r d).records)) = buf.capacity := by
  have hnlt : ¬ buf.records.length < buf.capacity := by omega
  have hsplit : buf.seen_count + 1 = buf.capacity + (buf.seen_count + 1 - buf.capacity) := by
    omega
  rw [hsplit, List.range_add, List.countP_append, List.countP_map]
  have h1 : (List.range buf.capacity).countP
      (fun d => decide (r ∈ (buf.offer r d).records)) = buf.capacity := by
    have h : (List.range buf.capacity).countP
        (fun d => decide (r ∈ (buf.offer r d).records)) =
          (List.range buf.capacity).length :=
      List.countP_eq_length.mpr (fun d hd => by
        have hdc : d < buf.capacity := List.mem_range.mp hd
        have hdl : d < buf.records.length := by omega
        have hmem := List.mem_set buf.records d hdl r
        simpa [ReservoirBuffer.offer, hnlt, hdc] using hmem)
    rw [h, List.length_range]
  have h2 : (List.range (buf.seen_count + 1 - buf.capacity)).countP
      ((fun d => decide (r ∈ (buf.offer r d).records)) ∘ (buf.capacity + ·)) = 0 := by
    rw [List.countP_eq_zero]
    intro d _
    have hnd2 : ¬ buf.capacity + d < buf.capacity := by omega
    simp [ReservoirBuffer.offer, hnlt, hnd2, hr]
  rw [h1, h2]
  omega

/-- One full-buffer `offer` of `r` cannot introduce any other absent record. -/
lemma countP_offer_not_mem (buf : ReservoirBuffer Nat) (r i : Nat)
    (hil : i ∉ buf.records) (hir : i ≠ r) :
    (List.range (buf.seen_count + 1)).countP
      (fun d => decide (i ∈ (buf.offer r d).records)) = 0 := by
  rw [List.countP_eq_zero]
  intro d _
  unfold ReservoirBuffer.offer
  split
  · simp [hil, hir]
  · split
    · simpa using not_mem_set hil hir
    · simpa using hil

/-! ### The reservoir process as a distribution -/

/-- `offer` with the draw taken uniformly from `[0, seen_count)` for the
updated `seen_count`, as the spec's §4.2 contract prescribes.  Below
capacity the append is deterministic. -/
def ReservoirBuffer.offerDist {α : Type} (buf : ReservoirBuffer α) (r : α) :
    Dist (ReservoirBuffer α) :=
  if buf.records.length < buf.capacity then
    Dist.pure (buf.offer r 0)
  else
    (uniformDraw (buf.seen_count + 1)).bind (fun d => Dist.pure (buf.offer r d))

/-- The whole stream process: offer the distinct records `0, 1, …, n − 1`
(in this order) to an initially empty buffer of capacity `c`. -/
def runDist (c : Nat) : Nat → Dist (ReservoirBuffer Nat)
  | 0 => Dist.pure (ReservoirBuffer.empty Nat c)
  | n + 1 => (runDist c n).bind (fun b => b.offerDist n)

/-- Invariants of every buffer reachable after `n` offers: correct capacity
and `seen_count`, size `min c n` as the spec states, distinct records, and
records drawn from the offered stream. -/
def GoodBuf (c n : Nat) (b : ReservoirBuffer Nat) : Prop :=
  b.capacity = c ∧ b.seen_count = n ∧ b.records.length = min c n ∧
    b.records.Nodup ∧ ∀ x ∈ b.records, x < n

lemma mem_offerDist {α : Type} {b : ReservoirBuffer α} {r : α}
    {q : ReservoirBuffer α × ℚ} (h : q ∈ b.offerDist r) :
    ∃ d, q.1 = b.offer r d := by
  unfold ReservoirBuffer.offerDist at h
  split at h
  · exact ⟨0, by simpa [Dist.pure] using congrArg Prod.fst (List.mem_singleton.mp h)⟩
  · simp only [Dist.bind, List.mem_flatMap, List.mem_map] at h
    obtain ⟨p, _, q₀, hq₀, hq⟩ := h
    refine ⟨p.1, ?_⟩
    have h1 : q₀ = (b.offer r p.1, 1) := List.mem_singleton.mp hq₀
    have h2 : q.1 = q₀.1 := (congrArg Prod.fst hq).symm
    rw [h2, h1]

lemma Dist.mem_bind {α β : Type} {d : Dist α} {f : α → Dist β} {q : β × ℚ}
    (h : q ∈ d.bind f) : ∃ p ∈ d, ∃ q₀ ∈ f p.1, q.1 = q₀.1 := by
  simp only [Dist.bind, List.mem_flatMap, List.mem_map] at h
  obtain ⟨p, hp, q₀, hq₀, hq⟩ := h
  exact ⟨p, hp, q₀, hq₀, (congrArg Prod.fst hq).symm⟩

lemma goodBuf_offer {c n : Nat} {b : ReservoirBuffer Nat} (hb : GoodBuf c n b)
    (d : Nat) : GoodBuf c (n + 1) (b.offer n d) := by
  obtain ⟨hcap, hseen, hlen, hnd, hbound⟩ := hb
  have hnotmem : (n : Nat) ∉ b.records := fun h => lt_irrefl n (hbound n h)
  unfold ReservoirBuffer.offer
  split
  · -- append branch: the buffer was strictly below capacity, so n < c
    rename_i hlt
    have hnc : n < c := by
      rw [hlen, hcap] at hlt
      omega
    refine ⟨hcap, by rw [hseen], ?_, ?_, ?_⟩
    · simp only [List.length_append, List.length_singleton, hlen]
      omega
    · rw [List.nodup_append]
      exact ⟨hnd, List.nodup_singleton n, fun a ha hb => hnotmem (by
        rcases List.mem_singleton.mp hb with rfl; exact ha)⟩
    · intro x hx
      rcases List.mem_append.mp hx with h | h
      · exact Nat.lt_succ_of_lt (hbound x h)
      · rcases List.mem_singleton.mp h with rfl; omega
  · -- the buffer is full: min c n = c and c ≤ n
    rename_i hnlt
    have hcn : c ≤ n := by
      by_contra hlt
      push_neg at hlt
      rw [hlen, hcap] at hnlt
      omega
    split
    · refine ⟨hcap, by rw [hseen], ?_, List.Nodup.set hnd hnotmem, ?_⟩
      · simp only [List.length_set, hlen]
        omega
      · intro x hx
        rcases List.mem_or_eq_of_mem_set hx with h | rfl
        · exact Nat.lt_succ_of_lt (hbound x h)
        · omega
    · refine ⟨hcap, by rw [hseen], by rw [hlen]; omega, hnd, ?_⟩
      intro x hx
      exact Nat.lt_succ_of_lt (hbound x hx)

lemma runDist_good (c n : Nat) : ∀ q ∈ runDist c n, GoodBuf c n q.1 := by
  induction n with
  | zero =>
      intro q hq
      rcases List.mem_singleton.mp hq with rfl
      exact ⟨rfl, rfl, by simp [ReservoirBuffer.empty], List.nodup_nil, by simp [ReservoirBuffer.empty]⟩
  | succ n ih =>
      intro q hq
      obtain ⟨p, hp, q₀, hq₀, hq⟩ := Dist.mem_bind hq
      obtain ⟨d, hd⟩ := mem_offerDist hq₀
      rw [hq, hd]
      exact goodBuf_offer (ih p hp) d

lemma offerDist_wsum {α : Type} (b : ReservoirBuffer α) (r : α) :
    (b.offerDist r).wsum = 1 := by
  unfold ReservoirBuffer.offerDist
  split
  · exact Dist.wsum_pure _
  · rw [Dist.wsum_bind]
    have : ((uniformDraw (b.seen_count + 1)).map
        (fun q => q.2 * (Dist.pure (b.offer r q.1)).wsum)) =
          ((uniformDraw (b.seen_count + 1)).map Prod.snd) := by
      apply List.map_congr_left
      intro a _
      rw [Dist.wsum_pure, mul_one]
    rw [this]
    exact uniformDraw_wsum _ (Nat.succ_pos _)

lemma runDist_wsum (c n : Nat) : (runDist c n).wsum = 1 := by
  induction n with
  | zero => exact Dist.wsum_pure _
  | succ n ih =>
      show ((runDist c n).bind (fun b => b.offerDist n)).wsum = 1
      rw [Dist.wsum_bind]
      have : ((runDist c n).map (fun q => q.2 * (q.1.offerDist n).wsum)) =
          ((runDist c n).map Prod.snd) := by
        apply List.map_congr_left
        intro a _
        rw [offerDist_wsum, mul_one]
      rw [this]
      exact ih

lemma sum_map_mul_indicator (l : List Nat) (k : ℚ) (q : Nat → Bool) :
    (l.map (fun i => k * (if q i then (1 : ℚ) else 0))).sum = k * (l.countP q : ℚ) := by
  induction l with
  | nil => simp
  | cons a t ih =>
      rw [List.map_cons, List.sum_cons, ih, List.countP_cons]
      by_cases h : q a <;> simp [h] <;> push_cast <;> ring

lemma sum_map_prob_indicator {α : Type} (d : Dist α) (g : α → ℚ) (p : α → Bool)
    (k : ℚ) (h : ∀ q ∈ d, g q.1 = k * (if p q.1 then 1 else 0)) :
    (d.map (fun q => q.2 * g q.1)).sum = k * d.prob p := by
  induction d with
  | nil => simp [Dist.prob]
  | cons a t ih =>
      rw [List.map_cons, List.sum_cons, Dist.prob_cons,
        h a (List.mem_cons_self a t), ih (fun q hq => h q (List.mem_cons_of_mem a hq))]
      by_cases hp : p a.1 <;> simp [hp] <;> ring

lemma sum_map_const_mul {α : Type} (d : Dist α) (g : α → ℚ) (k : ℚ)
    (h : ∀ q ∈ d, g q.1 = k) :
    (d.map (fun q => q.2 * g q.1)).sum = k * d.wsum := by
  induction d with
  | nil => simp [Dist.wsum]
  | cons a t ih =>
      rw [List.map_cons, List.sum_cons, Dist.wsum_cons,
        h a (List.mem_cons_self a t), ih (fun q hq => h q (List.mem_cons_of_mem a hq))]
      ring

/-- While `seen_count ≤ capacity` the reservoir is deterministic: it holds
exactly the records offered so far, in order. -/
lemma runDist_below_capacity (c : Nat) :
    ∀ n, n ≤ c → runDist c n = Dist.pure ⟨c, List.range n, n⟩ := by
  intro n
  induction n with
  | zero => intro _; rfl
  | succ n ih =>
      intro hn
      have hlt : n < c := by omega
      show (runDist c n).bind (fun b => b.offerDist n) = _
      rw [ih (by omega)]
      have hb : (ReservoirBuffer.mk c (List.range n) n).offerDist n =
          Dist.pure ⟨c, List.range (n + 1), n + 1⟩ := by
        unfold ReservoirBuffer.offerDist
        rw [if_pos (by simpa using hlt)]
        unfold ReservoirBuffer.offer
        rw [if_pos (by simpa using hlt)]
        simp [Dist.pure, List.range_succ]
      simp [Dist.bind, Dist.pure, hb]

/-- Probability of an event after one `offer` on a full buffer: the fraction
of the `seen_count + 1` equally likely draws whose outcome satisfies it. -/
lemma offerDist_prob_full {α : Type} (buf : ReservoirBuffer α) (r : α)
    (p : ReservoirBuffer α → Bool)
    (hfull : ¬ buf.records.length < buf.capacity) :
    (buf.offerDist r).prob p =
      (((List.range (buf.seen_count + 1)).countP (fun d => p (buf.offer r d)) : Nat) : ℚ) /
        ((buf.seen_count : ℚ) + 1) := by
  unfold ReservoirBuffer.offerDist
  rw [if_neg hfull, Dist.prob_bind]
  unfold uniformDraw
  rw [List.map_map]
  have hcomp : ((fun q : Nat × ℚ => q.2 * (Dist.pure (buf.offer r q.1)).prob p) ∘
      fun i => (i, ((buf.seen_count + 1 : Nat) : ℚ)⁻¹)) =
        fun i => ((buf.seen_count + 1 : Nat) : ℚ)⁻¹ * (if p (buf.offer r i) then 1 else 0) := by
    funext i
    simp [Dist.prob_pure]
  rw [hcomp, sum_map_mul_indicator]
  push_cast
  ring

/-- The classic reservoir-sampling retention theorem for the modelled
process: once `c ≤ n`, each offered record is in the buffer with
probability exactly `c / n`. -/
lemma runDist_retention (c : Nat) (hc : 0 < c) :
    ∀ n, c ≤ n → ∀ i, i < n →
      (runDist c n).prob (fun b => decide (i ∈ b.records)) = (c : ℚ) / (n : ℚ) := by
  intro n
  induction n with
  | zero => intro h; omega
  | succ n ih =>
      intro hcn i hi
      by_cases hbase : n < c
      · -- base case n + 1 = c: the buffer deterministically holds range c
        have hceq : n + 1 = c := by omega
        rw [runDist_below_capacity c (n + 1) (by omega), Dist.prob_pure]
        rw [if_pos (by simpa using hi)]
        rw [hceq]
        rw [div_self (by positivity)]
      · push_neg at hbase
        have hnpos : 0 < n := by omega
        have hprob : (runDist c (n + 1)).prob (fun b => decide (i ∈ b.records)) =
            ((runDist c n).map (fun q => q.2 *
              ((q.1.offerDist n).prob (fun b => decide (i ∈ b.records))))).sum := by
          show ((runDist c n).bind (fun b => b.offerDist n)).prob _ = _
          rw [Dist.prob_bind]
        rw [hprob]
        by_cases hin : i = n
        · -- the record offered at this step: inserted with probability c/(n+1)
          have hpt : ∀ q ∈ runDist c n,
              ((q.1.offerDist n).prob (fun b => decide (n ∈ b.records))) =
                (c : ℚ) / ((n : ℚ) + 1) := by
            intro q hq
            obtain ⟨hcap, hseen, hlen, hnd, hbound⟩ := runDist_good c n q hq
            have hfull : ¬ q.1.records.length < q.1.capacity := by
              rw [hlen, hcap]; omega
            have hnm : (n : Nat) ∉ q.1.records := fun h => lt_irrefl n (hbound n h)
            rw [offerDist_prob_full q.1 n _ hfull]
            rw [countP_offer_new q.1 n (by rw [hlen, hcap]; omega) hnm
              (by rw [hcap, hseen]; omega)]
            rw [hcap, hseen]
          have hsum := sum_map_const_mul (runDist c n)
            (fun b => (b.offerDist n).prob (fun x => decide (n ∈ x.records)))
            ((c : ℚ) / ((n : ℚ) + 1)) hpt
          rw [runDist_wsum, mul_one] at hsum
          rw [hin]
          exact hsum.trans (by push_cast; ring)
        · -- an older record: survives with probability (c/n) · (n/(n+1))
          have hilt : i < n := by omega
          have hpt : ∀ q ∈ runDist c n,
              ((q.1.offerDist n).prob (fun b => decide (i ∈ b.records))) =
                ((n : ℚ) / ((n : ℚ) + 1)) *
                  (if decide (i ∈ q.1.records) then 1 else 0) := by
            intro q hq
            obtain ⟨hcap, hseen, hlen, hnd, hbound⟩ := runDist_good c n q hq
            have hfull : ¬ q.1.records.length < q.1.capacity := by
              rw [hlen, hcap]; omega
            rw [offerDist_prob_full q.1 n _ hfull]
            by_cases hmem : i ∈ q.1.records
            · rw [countP_offer_mem q.1 n i (by rw [hlen, hcap]; omega) hnd hmem
                (by omega) (by rw [hcap, hseen]; omega)]
              rw [hseen]
              simp [hmem]
            · rw [countP_offer_not_mem q.1 n i hmem (by omega)]
              simp [hmem]
          have hsum := sum_map_prob_indicator (runDist c n)
            (fun b => (b.offerDist n).prob (fun x => decide (i ∈ x.records)))
            (fun b => decide (i ∈ b.records))
            ((n : ℚ) / ((n : ℚ) + 1)) hpt
          rw [ih hbase i hilt] at hsum
          refine hsum.trans ?_
          have hn0 : (n : ℚ) ≠ 0 := by positivity
          have hn1 : (n : ℚ) + 1 ≠ 0 := by positivity
          push_cast
          field_simp
          ring

/-! ### Regret matching and the policy query -/

/-- Modelled from the spec (§4.1 step 2, §4.6): derive a strategy from
per-action scores by regret matching — clip negative scores to zero and
normalize; when no clipped mass remains, fall back to the uniform
distribution over the legal actions. -/
def regretMatch (scores : List ℚ) : List ℚ :=
  let clipped := scores.map (fun x => max x 0)
  let total := clipped.sum
  if 0 < total then clipped.map (fun x => x / total)
  else List.replicate scores.length ((scores.length : ℚ)⁻¹)

lemma regretMatch_length (scores : List ℚ) :
    (regretMatch scores).length = scores.length := by
  simp only [regretMatch]
  split <;> simp

lemma sum_map_div (l : List ℚ) (c : ℚ) : (l.map (fun x => x / c)).sum = l.sum / c := by
  induction l with
  | nil => simp
  | cons a t ih => rw [List.map_cons, List.sum_cons, List.sum_cons, ih]; ring

lemma regretMatch_nonneg (scores : List ℚ) :
    ∀ p ∈ regretMatch scores, 0 ≤ p := by
  simp only [regretMatch]
  split
  · rename_i htot
    intro p hp
    simp only [List.mem_map] at hp
    obtain ⟨x, ⟨y, _, hyx⟩, hxp⟩ := hp
    rw [← hxp, ← hyx]
    exact div_nonneg (le_max_right y 0) (le_of_lt htot)
  · intro p hp
    rw [List.eq_of_mem_replicate hp]
    positivity

lemma regretMatch_sum (scores : List ℚ) (h : scores ≠ []) :
    (regretMatch scores).sum = 1 := by
  simp only [regretMatch]
  split
  · rename_i htot
    rw [sum_map_div, div_self (ne_of_gt htot)]
  · rw [List.sum_replicate, nsmul_eq_mul, mul_inv_cancel₀]
    have : 0 < scores.length := List.length_pos.mpr h
    positivity

lemma regretMatch_allNonpos (scores : List ℚ) (h : ∀ x ∈ scores, x ≤ 0) :
    regretMatch scores = List.replicate scores.length ((scores.length : ℚ)⁻¹) := by
  simp only [regretMatch]
  have hz : (scores.map (fun x => max x 0)).sum = 0 := by
    apply List.sum_eq_zero
    intro x hx
    simp only [List.mem_map] at hx
    obtain ⟨y, hy, hyx⟩ := hx
    rw [← hyx]
    exact max_eq_right (h y hy)
  rw [if_neg (by rw [hz]; exact lt_irrefl 0)]

/-- Modelled from the spec (§4.6): `action_probabilities(infostate)` — the
`deep_cfr_tf2` policy query is not in the sources.  Encodes the infostate,
queries the strategy network for per-action scores, applies the same
clip-and-normalize regret matching with uniform fallback, and returns the
mapping action ↦ probability over exactly the legal action set. -/
def action_probabilities {I : Type} (strategy_network : List ℚ → List ℚ)
    (encode : I → List ℚ) (legal_actions : I → List Nat) (info : I) :
    List (Nat × ℚ) :=
  let scores := strategy_network (encode info)
  let ls := legal_actions info
  ls.zip (regretMatch (ls.map (fun a => scores.getD a 0)))

/-- The probability the returned mapping assigns to an action: its looked-up
entry, and zero for actions outside the mapping. -/
def probOf (m : List (Nat × ℚ)) (a : Nat) : ℚ := (m.lookup a).getD 0

lemma lookup_eq_none_of_not_mem_fst {l : List (Nat × ℚ)} {a : Nat}
    (h : a ∉ l.map Prod.fst) : l.lookup a = none := by
  induction l with
  | nil => rfl
  | cons p t ih =>
      simp only [List.map_cons, List.mem_cons, not_or] at h
      have hb : (a == p.1) = false := beq_eq_false_iff_ne.mpr h.1
      simp only [List.lookup, hb]
      exact ih h.2

/-! ### The traversal engine -/

/-- Modelled from the spec (§4.1, §6): an extensive-form game tree node as
the game interface exposes it — terminal with a per-player utility vector,
chance with an outcome distribution, or a decision node with its acting
player, encoded infostate, and one child per legal action. -/
inductive GameNode where
  | terminal (utility : List ℚ)
  | chance (probs : List ℚ) (children : List GameNode)
  | decision (player : Nat) (infostate : List ℚ) (children : List GameNode)

/-- The traversal-owned mutable state: per-player advantage buffers, the
shared strategy buffer, and the stream of reservoir draws. -/
structure TravState where
  advantage_buffers : List (ReservoirBuffer AdvantageRecord)
  strategy_buffer : ReservoirBuffer StrategyRecord
  draws : List Nat

/-- Consume the next reservoir draw from the state's stream. -/
def TravState.nextDraw (s : TravState) : Nat × TravState :=
  (s.draws.headD 0, { s with draws := s.draws.tail })

/-- Dot product of two per-action vectors. -/
def dot (a b : List ℚ) : ℚ := (List.zipWith (· * ·) a b).sum

/-- Per-player strategy-weighted sum of the per-action counterfactual value
vectors: component `pl` is `Σₐ strat a * vals a pl`. -/
def weightedValues (np : Nat) (strat : List ℚ) (vals : List (List ℚ)) : List ℚ :=
  (List.range np).map (fun pl =>
    (List.zipWith (fun w v => w * v.getD pl 0) strat vals).sum)

mutual

/-- Modelled from the spec (§4.1): the recursive external-sampling
traversal.  Terminal nodes return the utility vector; chance nodes sample
one outcome via `choose` and recurse; the traversing player's decision
nodes recurse into every legal action with regret matching over the
player's advantage network `net`, append one `AdvantageRecord`, and return
the strategy-weighted node value; other players' decision nodes record a
`StrategyRecord` and recurse into a single sampled action. -/
def traverse (np : Nat) (net : Nat → List ℚ → List ℚ) (tp iter : Nat)
    (choose : List ℚ → Nat) : GameNode → TravState → List ℚ × TravState
  | .terminal u, s => (u, s)
  | .chance probs children, s =>
      traverseNth np net tp iter choose children (choose probs) s
  | .decision p info children, s =>
      let strat := regretMatch (net p info)
      if p = tp then
        let r := traverseAll np net tp iter choose children s
        let myVals := r.1.map (fun v => v.getD tp 0)
        let nodeVal := dot strat myVals
        let record : AdvantageRecord :=
          ⟨info, myVals.map (fun x => x - nodeVal), iter, p⟩
        let dr := r.2.nextDraw
        let buf0 := dr.2.advantage_buffers.getD tp (ReservoirBuffer.empty AdvantageRecord 0)
        (weightedValues np strat r.1,
         { dr.2 with
           advantage_buffers := dr.2.advantage_buffers.set tp (buf0.offer record dr.1) })
      else
        let record : StrategyRecord := ⟨info, strat, iter⟩
        let dr := s.nextDraw
        let s1 := { dr.2 with
          strategy_buffer := dr.2.strategy_buffer.offer record dr.1 }
        traverseNth np net tp iter choose children (choose strat) s1

/-- Recurse into the `k`-th child (the sampled branch); out-of-range
samples return the zero value vector. -/
def traverseNth (np : Nat) (net : Nat → List ℚ → List ℚ) (tp iter : Nat)
    (choose : List ℚ → Nat) :
    List GameNode → Nat → TravState → List ℚ × TravState
  | [], _, s => (List.replicate np 0, s)
  | c :: _, 0, s => traverse np net tp iter choose c s
  | _ :: rest, k + 1, s => traverseNth np net tp iter choose rest k s

/-- Recurse into every child in order, threading the state, and collect the
per-action counterfactual value vectors. -/
def traverseAll (np : Nat) (net : Nat → List ℚ → List ℚ) (tp iter : Nat)
    (choose : List ℚ → Nat) :
    List GameNode → TravState → List (List ℚ) × TravState
  | [], s => ([], s)
  | c :: rest, s =>
      let r1 := traverse np net tp iter choose c s
      let r2 := traverseAll np net tp iter choose rest r1.2
      (r1.1 :: r2.1, r2.2)

end

/-! ### Solver state, the solve loop, and the measurement callback -/

/-- Modelled from the spec (§3): `SolverState` — the `deep_cfr_tf2`
`DeepCFRSolver` class is not in the sources.  Networks are modelled by the
score functions they implement. -/
structure DeepCFRSolver where
  advantage_networks : List (List ℚ → List ℚ)
  policy_network : List ℚ → List ℚ
  advantage_buffers : List (ReservoirBuffer AdvantageRecord)
  strategy_buffer : ReservoirBuffer StrategyRecord
  iteration : Nat

/-- Modelled from the spec (§4.4): `_learn_strategy_network` fits the shared
strategy network on the accumulated strategy buffer; only the policy
network changes. -/
def DeepCFRSolver.learn_strategy_network
    (fit : ReservoirBuffer StrategyRecord → (List ℚ → List ℚ))
    (s : DeepCFRSolver) : DeepCFRSolver :=
  { s with policy_network := fit s.strategy_buffer }

/-- Modelled from the spec (§9): the `reinitialize_strategy_network`-style
reset path — the policy network is replaced by a fresh initialization. -/
def DeepCFRSolver.reinitialize_policy_network (fresh : List ℚ → List ℚ)
    (s : DeepCFRSolver) : DeepCFRSolver :=
  { s with policy_network := fresh }

/-- The `progress` callback of `run_deep_cfr.py`, embedded from its source:
train the strategy network early, measure NashConv through the external
exploitability evaluator, reset the strategy network, append the measured
value to the module-global `conv_data`, and return it. -/
def progress (fit : ReservoirBuffer StrategyRecord → (List ℚ → List ℚ))
    (fresh : List ℚ → List ℚ) (nash_conv : DeepCFRSolver → ℚ)
    (solver : DeepCFRSolver) (conv_data : List ℚ) :
    ℚ × DeepCFRSolver × List ℚ :=
  let s1 := solver.learn_strategy_network fit
  let conv := nash_conv s1
  let s2 := s1.reinitialize_policy_network fresh
  (conv, s2, conv_data ++ [conv])

/-- Iterated callback invocations, threading solver and `conv_data`. -/
def runCallbacks (fit : ReservoirBuffer StrategyRecord → (List ℚ → List ℚ))
    (fresh : List ℚ → List ℚ) (nash_conv : DeepCFRSolver → ℚ) :
    Nat → DeepCFRSolver → List ℚ → DeepCFRSolver × List ℚ
  | 0, s, cd => (s, cd)
  | n + 1, s, cd =>
      let r := progress fit fresh nash_conv s cd
      runCallbacks fit fresh nash_conv n r.2.1 r.2.2

/-- Modelled from the spec (§4.5): the `Iterating` phase of `solve()` — for
`n` remaining iterations starting at index `i`, run the per-iteration work
(`step`: all players' traversals and advantage retraining, abstracted), then
invoke the progress callback with `(game, solver)`, logging the iteration
number and the callback's return value. -/
def solveLoop {G : Type} (game : G) (step : DeepCFRSolver → Nat → DeepCFRSolver)
    (callback : G → DeepCFRSolver → ℚ) :
    Nat → Nat → DeepCFRSolver → List (Nat × ℚ) → DeepCFRSolver × List (Nat × ℚ)
  | 0, _, s, log => (s, log)
  | n + 1, i, s, log =>
      let s1 := step s i
      solveLoop game step callback n (i + 1) s1 (log ++ [(i, callback game s1)])

/-- Modelled from the spec (§4.5): `solve()` runs iterations `1, …,
num_iterations`, invoking the configured callback once per completed
iteration. -/
def solve {G : Type} (game : G) (step : DeepCFRSolver → Nat → DeepCFRSolver)
    (callback : G → DeepCFRSolver → ℚ) (num_iterations : Nat)
    (s : DeepCFRSolver) : DeepCFRSolver × List (Nat × ℚ) :=
  solveLoop game step callback num_iterations 1 s []

/-- Modelled from the spec (§4.5/§4.6): after `solve()` a policy query is a
pure read of the final strategy network — it returns the distribution for
the infostate and leaves the solver untouched. -/
def DeepCFRSolver.query {I : Type} (s : DeepCFRSolver) (encode : I → List ℚ)
    (legal_actions : I → List Nat) (info : I) :
    List (Nat × ℚ) × DeepCFRSolver :=
  (action_probabilities s.policy_network encode legal_actions info, s)

/-- Modelled from the spec (§4.3, §7): one advantage-network retraining
step.  `EmptyBufferError` from `sample_batch` is recoverable: the step is
skipped with a warning (second component `true`) and the old network is
kept, rather than aborting the solve. -/
def advantageRetrainStep (fit : List AdvantageRecord → (List ℚ → List ℚ))
    (buf : ReservoirBuffer AdvantageRecord) (network : List ℚ → List ℚ)
    (batch_size : Nat) (draw : Nat → Nat) : (List ℚ → List ℚ) × Bool :=
  match buf.sample_batch batch_size draw with
  | .error _ => (network, true)
  | .ok batch => (fit batch, false)

/-! ### Supporting lemmas for the solve loop, callbacks and traversal -/

lemma solveLoop_map_fst {G : Type} (game : G)
    (step : DeepCFRSolver → Nat → DeepCFRSolver)
    (callback : G → DeepCFRSolver → ℚ) :
    ∀ (n i : Nat) (s : DeepCFRSolver) (log : List (Nat × ℚ)),
      ((solveLoop game step callback n i s log).2).map Prod.fst =
        log.map Prod.fst ++ List.range' i n := by
  intro n
  induction n with
  | zero => intro i s log; simp [solveLoop]
  | succ n ih =>
      intro i s log
      show ((solveLoop game step callback n (i + 1) (step s i)
        (log ++ [(i, callback game (step s i))])).2).map Prod.fst = _
      rw [ih, List.range'_succ]
      simp

lemma chain_lt_range' (n : Nat) : ∀ i, List.Chain' (· < ·) (List.range' i n) := by
  induction n with
  | zero => intro i; simp
  | succ n ih =>
      intro i
      rw [List.range'_succ, List.chain'_cons']
      refine ⟨?_, ih (i + 1)⟩
      intro b hb
      cases n with
      | zero => simp [List.range'] at hb
      | succ m =>
          rw [List.range'_succ] at hb
          simp at hb
          omega

lemma runCallbacks_state_indep (fit : ReservoirBuffer StrategyRecord → (List ℚ → List ℚ))
    (fresh : List ℚ → List ℚ) (nash_conv : DeepCFRSolver → ℚ)
    (solver : DeepCFRSolver) (cd cd' : List ℚ) :
    (progress fit fresh nash_conv solver cd).2.1 =
      (progress fit fresh nash_conv solver cd').2.1 := rfl

lemma runCallbacks_append (fit : ReservoirBuffer StrategyRecord → (List ℚ → List ℚ))
    (fresh : List ℚ → List ℚ) (nash_conv : DeepCFRSolver → ℚ) :
    ∀ (n : Nat) (s : DeepCFRSolver) (cd : List ℚ),
      (runCallbacks fit fresh nash_conv n s cd).2 =
        cd ++ (runCallbacks fit fresh nash_conv n s []).2 := by
  intro n
  induction n with
  | zero => intro s cd; simp [runCallbacks]
  | succ n ih =>
      intro s cd
      show (runCallbacks fit fresh nash_conv n
          (progress fit fresh nash_conv s cd).2.1
          (progress fit fresh nash_conv s cd).2.2).2 = cd ++
        (runCallbacks fit fresh nash_conv n
          (progress fit fresh nash_conv s []).2.1
          (progress fit fresh nash_conv s []).2.2).2
      rw [ih ((progress fit fresh nash_conv s cd).2.1)
        ((progress fit fresh nash_conv s cd).2.2)]
      rw [ih ((progress fit fresh nash_conv s []).2.1)
        ((progress fit fresh nash_conv s []).2.2)]
      show cd ++ [nash_conv (s.learn_strategy_network fit)] ++ _ =
        cd ++ ([] ++ [nash_conv (s.learn_strategy_network fit)] ++ _)
      simp
      rfl

lemma runCallbacks_length (fit : ReservoirBuffer StrategyRecord → (List ℚ → List ℚ))
    (fresh : List ℚ → List ℚ) (nash_conv : DeepCFRSolver → ℚ) :
    ∀ (n : Nat) (s : DeepCFRSolver) (cd : List ℚ),
      (runCallbacks fit fresh nash_conv n s cd).2.length = cd.length + n := by
  intro n
  induction n with
  | zero => intro s cd; simp [runCallbacks]
  | succ n ih =>
      intro s cd
      show (runCallbacks fit fresh nash_conv n
          (progress fit fresh nash_conv s cd).2.1
          (progress fit fresh nash_conv s cd).2.2).2.length = cd.length + (n + 1)
      rw [ih]
      show (cd ++ [nash_conv (s.learn_strategy_network fit)]).length + n = _
      simp
      omega

lemma traverseAll_length (np : Nat) (net : Nat → List ℚ → List ℚ) (tp iter : Nat)
    (choose : List ℚ → Nat) :
    ∀ (children : List GameNode) (s : TravState),
      (traverseAll np net tp iter choose children s).1.length = children.length := by
  intro children
  induction children with
  | nil => intro s; simp [traverseAll]
  | cons c rest ih =>
      intro s
      simp only [traverseAll, List.length_cons]
      rw [ih]

lemma getD_range_map (np tp : Nat) (f : Nat → ℚ) (h : tp < np) :
    ((List.range np).map f).getD tp 0 = f tp := by
  rw [List.getD_eq_getElem?_getD, List.getElem?_map, List.getElem?_range h]
  rfl

lemma dot_zipWith_getD (strat : List ℚ) (vals : List (List ℚ)) (tp : Nat) :
    dot strat (vals.map (fun v => v.getD tp 0)) =
      (List.zipWith (fun w v => w * v.getD tp 0) strat vals).sum := by
  rw [dot, List.zipWith_map_right]

lemma dot_map_sub (m : ℚ) :
    ∀ (σ v : List ℚ), σ.length = v.length →
      dot σ (v.map (fun x => x - m)) = dot σ v - m * σ.sum := by
  intro σ
  induction σ with
  | nil => intro v h; simp [dot]
  | cons a σt ih =>
      intro v h
      cases v with
      | nil => simp at h
      | cons b vt =>
          simp only [List.length_cons, Nat.succ_inj] at h
          simp only [List.map_cons, dot, List.zipWith_cons_cons, List.sum_cons,
            List.sum_cons]
          rw [show (List.zipWith (· * ·) σt (vt.map (fun x => x - m))).sum =
            dot σt (vt.map (fun x => x - m)) from rfl]
          rw [ih vt h]
          rw [show (List.zipWith (· * ·) σt vt).sum = dot σt vt from rfl]
          ring

/-! ### Claim theorems -/

/-- C1: after any sequence of offers the reservoir never holds more than
`capacity` records; in the modelled uniform-draw process, once
`capacity ≤ seen_count` every reachable buffer holds exactly
`min capacity seen_count` records and each record ever offered is retained
with probability exactly `capacity / seen_count`. -/
theorem claim_C1 (c n i : Nat) (hc : 0 < c) (hcn : c ≤ n) (hi : i < n) :
    (∀ (buf : ReservoirBuffer Nat) (xs : List (Nat × Nat)),
        buf.records.length ≤ buf.capacity →
        (buf.offerAll xs).records.length ≤ (buf.offerAll xs).capacity) ∧
    (∀ q ∈ runDist c n, q.1.records.length = min c n ∧ q.1.seen_count = n) ∧
    (runDist c n).prob (fun b => decide (i ∈ b.records)) = (c : ℚ) / (n : ℚ) := by
  refine ⟨fun buf xs h => ReservoirBuffer.offerAll_length_le buf xs h, ?_, ?_⟩
  · intro q hq
    obtain ⟨_, hseen, hlen, _, _⟩ := runDist_good c n q hq
    exact ⟨hlen, hseen⟩
  · exact runDist_retention c hc n hcn i hi

/-- C1 witness: capacity 2, three offered records, record 1 is retained
with probability 2/3. -/
theorem claim_C1_witness :
    0 < 2 ∧ 2 ≤ 3 ∧ 1 < 3 ∧
      (runDist 2 3).prob (fun b => decide (1 ∈ b.records)) =
        ((2 : Nat) : ℚ) / ((3 : Nat) : ℚ) :=
  ⟨by decide, by decide, by decide, (claim_C1 2 3 1 (by decide) (by decide) (by decide)).2.2⟩

/-- C4: regret matching clips negative scores to zero and normalizes; the
result is a probability distribution (no division by zero occurs), and
whenever every score is non-positive it is exactly the uniform distribution
over the legal actions. -/
theorem claim_C4 (scores : List ℚ) (h : scores ≠ []) :
    (∀ p ∈ regretMatch scores, 0 ≤ p) ∧
    (regretMatch scores).sum = 1 ∧
    ((∀ x ∈ scores, x ≤ 0) →
      regretMatch scores = List.replicate scores.length ((scores.length : ℚ)⁻¹)) :=
  ⟨regretMatch_nonneg scores, regretMatch_sum scores h,
    fun hnp => regretMatch_allNonpos scores hnp⟩

/-- C4 witness: on the all-negative score vector `[-1, -2]` the derived
strategy is exactly uniform. -/
theorem claim_C4_witness :
    ([(-1 : ℚ), -2] ≠ []) ∧ (∀ x ∈ [(-1 : ℚ), -2], x ≤ 0) ∧
      regretMatch [(-1 : ℚ), -2] =
        List.replicate ([(-1 : ℚ), -2].length) (([(-1 : ℚ), -2].length : ℚ))⁻¹ :=
  ⟨by simp, by decide, (claim_C4 [(-1 : ℚ), -2] (by simp)).2.2 (by decide)⟩

/-- C5: `offer` follows the single-pass reservoir algorithm exactly —
`seen_count` is incremented, the record is appended below capacity,
otherwise the uniform draw overwrites `records[idx]` when `idx < capacity`
and leaves the records unchanged when it is not. -/
theorem claim_C5 {α : Type} (buf : ReservoirBuffer α) (r : α) (idx : Nat) :
    ((buf.offer r idx).seen_count = buf.seen_count + 1) ∧
    ((buf.offer r idx).capacity = buf.capacity) ∧
    (buf.records.length < buf.capacity →
      (buf.offer r idx).records = buf.records ++ [r]) ∧
    (¬ buf.records.length < buf.capacity → idx < buf.capacity →
      (buf.offer r idx).records = buf.records.set idx r) ∧
    (¬ buf.records.length < buf.capacity → ¬ idx < buf.capacity →
      (buf.offer r idx).records = buf.records) ∧
    (¬ buf.records.length < buf.capacity →
      buf.offerDist r =
        (uniformDraw (buf.seen_count + 1)).bind (fun d => Dist.pure (buf.offer r d))) := by
  refine ⟨?_, buf.offer_capacity r idx, ?_, ?_, ?_, ?_⟩
  · unfold ReservoirBuffer.offer
    split
    · rfl
    · split <;> rfl
  · intro h
    simp [ReservoirBuffer.offer, h]
  · intro h1 h2
    simp [ReservoirBuffer.offer, h1, h2]
  · intro h1 h2
    simp [ReservoirBuffer.offer, h1, h2]
  · intro h
    simp [ReservoirBuffer.offerDist, h]

/-- C5 witness: a full buffer of capacity 2 with a draw landing inside the
reservoir overwrites the drawn slot. -/
theorem claim_C5_witness :
    (¬ (ReservoirBuffer.mk 2 [7, 8] 5 : ReservoirBuffer Nat).records.length <
        (ReservoirBuffer.mk 2 [7, 8] 5 : ReservoirBuffer Nat).capacity) ∧
    ((ReservoirBuffer.mk 2 [7, 8] 5 : ReservoirBuffer Nat).offer 9 1).records =
      [7, 8].set 1 9 :=
  ⟨by decide, (claim_C5 (ReservoirBuffer.mk 2 [7, 8] 5) 9 1).2.2.2.1 (by decide) (by decide)⟩

/-- C8: sampling a batch from an empty reservoir fails with
`EmptyBufferError`, and the retraining step requested on an empty buffer is
recoverable — it is skipped with a warning, keeping the old network, rather
than aborting. -/
theorem claim_C8 (fit : List AdvantageRecord → (List ℚ → List ℚ))
    (buf : ReservoirBuffer AdvantageRecord) (network : List ℚ → List ℚ)
    (batch_size : Nat) (draw : Nat → Nat) (h : buf.records = []) :
    buf.sample_batch batch_size draw = .error SolverError.emptyBuffer ∧
    advantageRetrainStep fit buf network batch_size draw = (network, true) := by
  have hl : buf.records.length = 0 := by rw [h]; rfl
  constructor
  · unfold ReservoirBuffer.sample_batch
    rw [dif_pos hl]
  · unfold advantageRetrainStep ReservoirBuffer.sample_batch
    rw [dif_pos hl]

/-- C8 witness: the concrete empty advantage buffer skips the retraining
step with a warning. -/
theorem claim_C8_witness :
    (ReservoirBuffer.mk 3 ([] : List AdvantageRecord) 0).records = [] ∧
    advantageRetrainStep (fun _ => id) (ReservoirBuffer.mk 3 [] 0) id 4 (fun _ => 0) =
      (id, true) :=
  ⟨rfl, (claim_C8 (fun _ => id) (ReservoirBuffer.mk 3 [] 0) id 4 (fun _ => 0) rfl).2⟩

/-- C3: the policy query returns a probability distribution over exactly
the legal actions of the infostate — keys are the legal actions in order,
entries are non-negative and sum to 1 exactly (hence within any tolerance),
and every illegal action receives probability zero. -/
theorem claim_C3 {I : Type} (strategy_network : List ℚ → List ℚ)
    (encode : I → List ℚ) (legal_actions : I → List Nat) (info : I)
    (h : legal_actions info ≠ []) :
    ((action_probabilities strategy_network encode legal_actions info).map
        Prod.fst = legal_actions info) ∧
    (∀ p ∈ action_probabilities strategy_network encode legal_actions info,
        0 ≤ p.2) ∧
    ((action_probabilities strategy_network encode legal_actions info).map
        Prod.snd).sum = 1 ∧
    (∀ a, a ∉ legal_actions info →
      probOf (action_probabilities strategy_network encode legal_actions info) a = 0) := by
  have hlen : (regretMatch ((legal_actions info).map
      (fun a => (strategy_network (encode info)).getD a 0))).length =
        (legal_actions info).length := by
    rw [regretMatch_length, List.length_map]
  have hfst : (action_probabilities strategy_network encode legal_actions info).map
      Prod.fst = legal_actions info := by
    unfold action_probabilities
    exact List.map_fst_zip _ _ (le_of_eq hlen.symm)
  refine ⟨hfst, ?_, ?_, ?_⟩
  · intro p hp
    unfold action_probabilities at hp
    exact regretMatch_nonneg _ p.2 (List.of_mem_zip hp).2
  · unfold action_probabilities
    rw [List.map_snd_zip _ _ (le_of_eq hlen)]
    exact regretMatch_sum _ (by simpa using h)
  · intro a ha
    unfold probOf
    rw [lookup_eq_none_of_not_mem_fst (by rw [hfst]; exact ha)]
    rfl

/-- C3 witness: two legal actions with scores `[2, -1]` yield the
distribution assigning all mass to the first action; action 5 is illegal
and receives zero. -/
theorem claim_C3_witness :
    (((fun _ : Nat => [0, 1]) 0 ≠ []) ∧
      ((action_probabilities (fun _ => [(2 : ℚ), -1]) (fun _ : Nat => [])
          (fun _ => [0, 1]) 0).map Prod.snd).sum = 1) ∧
    (∀ a, a ∉ (fun _ : Nat => [0, 1]) 0 →
      probOf (action_probabilities (fun _ => [(2 : ℚ), -1]) (fun _ : Nat => [])
        (fun _ => [0, 1]) 0) a = 0) := by
  have h := claim_C3 (fun _ => [(2 : ℚ), -1]) (fun _ : Nat => [])
    (fun _ => [0, 1]) 0 (by simp)
  exact ⟨⟨by simp, h.2.2.1⟩, h.2.2.2⟩

/-- C6: `solve()` invokes the configured callback exactly once per
completed iteration, with the `(game, solver)` arguments, in strictly
increasing iteration order — the invocation log of an `N`-iteration solve
is exactly `[1, …, N]`; in particular a 3-iteration solve produces exactly
3 invocations. -/
theorem claim_C6 {G : Type} (game : G) (step : DeepCFRSolver → Nat → DeepCFRSolver)
    (callback : G → DeepCFRSolver → ℚ) (N : Nat) (s : DeepCFRSolver) :
    ((solve game step callback N s).2.map Prod.fst = List.range' 1 N) ∧
    ((solve game step callback N s).2.length = N) ∧
    List.Chain' (· < ·) ((solve game step callback N s).2.map Prod.fst) ∧
    ((solve game step callback 3 s).2.length = 3) := by
  have hmap : ∀ M : Nat, (solve game step callback M s).2.map Prod.fst =
      List.range' 1 M := by
    intro M
    unfold solve
    rw [solveLoop_map_fst]
    simp
  have hlen : ∀ M : Nat, (solve game step callback M s).2.length = M := by
    intro M
    have h1 := congrArg List.length (hmap M)
    rwa [List.length_map, List.length_range'] at h1
  exact ⟨hmap N, hlen N, by rw [hmap N]; exact chain_lt_range' N 1, hlen 3⟩

/-- C7: each invocation of the `progress` callback mutates only the
strategy (policy) network — it trains it early for measurement, measures on
the trained network, then resets it — while the advantage networks, the
advantage buffers, the strategy buffer and the iteration index are all
unchanged. -/
theorem claim_C7 (fit : ReservoirBuffer StrategyRecord → (List ℚ → List ℚ))
    (fresh : List ℚ → List ℚ) (nash_conv : DeepCFRSolver → ℚ)
    (solver : DeepCFRSolver) (conv_data : List ℚ) :
    ((progress fit fresh nash_conv solver conv_data).2.1.advantage_networks =
      solver.advantage_networks) ∧
    ((progress fit fresh nash_conv solver conv_data).2.1.advantage_buffers =
      solver.advantage_buffers) ∧
    ((progress fit fresh nash_conv solver conv_data).2.1.strategy_buffer =
      solver.strategy_buffer) ∧
    ((progress fit fresh nash_conv solver conv_data).2.1.iteration =
      solver.iteration) ∧
    ((progress fit fresh nash_conv solver conv_data).2.1.policy_network = fresh) ∧
    ((progress fit fresh nash_conv solver conv_data).1 =
      nash_conv (solver.learn_strategy_network fit)) :=
  ⟨rfl, rfl, rfl, rfl, rfl, rfl⟩

/-- C9: after `solve()` the policy query is a pure read — querying the same
infostate twice on an unmutated solver returns the identical distribution
and the identical solver. -/
theorem claim_C9 {I : Type} (s : DeepCFRSolver) (encode : I → List ℚ)
    (legal_actions : I → List Nat) (info : I) :
    ((s.query encode legal_actions info).2.query encode legal_actions info).1 =
      (s.query encode legal_actions info).1 ∧
    ((s.query encode legal_actions info).2.query encode legal_actions info).2 =
      (s.query encode legal_actions info).2 :=
  ⟨rfl, rfl⟩

/-- C10: every `progress` invocation appends exactly one element — the
NashConv value it computed and returns — to `conv_data`; iterating `n`
invocations extends `conv_data` by exactly the `n` per-iteration values in
invocation order. -/
theorem claim_C10 (fit : ReservoirBuffer StrategyRecord → (List ℚ → List ℚ))
    (fresh : List ℚ → List ℚ) (nash_conv : DeepCFRSolver → ℚ)
    (solver : DeepCFRSolver) (conv_data : List ℚ) (n : Nat) :
    ((progress fit fresh nash_conv solver conv_data).2.2 =
      conv_data ++ [(progress fit fresh nash_conv solver conv_data).1]) ∧
    ((runCallbacks fit fresh nash_conv n solver conv_data).2 =
      conv_data ++ (runCallbacks fit fresh nash_conv n solver []).2) ∧
    ((runCallbacks fit fresh nash_conv n solver conv_data).2.length =
      conv_data.length + n) :=
  ⟨rfl, runCallbacks_append fit fresh nash_conv n solver conv_data,
    runCallbacks_length fit fresh nash_conv n solver conv_data⟩

/-- C2: at a decision node of the traversing player the traversal recurses
into every legal action (one collected value vector per child), returns the
strategy-weighted sum of the per-action counterfactual values as the node
value, appends exactly one `AdvantageRecord` — carrying the full advantage
vector `action value − node value` and the current iteration — to the
traversing player's buffer (the strategy buffer is untouched), and the
strategy-weighted advantages sum to zero. -/
theorem claim_C2 (np : Nat) (net : Nat → List ℚ → List ℚ) (tp iter : Nat)
    (choose : List ℚ → Nat) (info : List ℚ) (children : List GameNode)
    (s : TravState) (htp : tp < np) (hne : children ≠ [])
    (hlen : (net tp info).length = children.length) :
    ((traverseAll np net tp iter choose children s).1.length = children.length) ∧
    ((traverse np net tp iter choose (.decision tp info children) s).1 =
      weightedValues np (regretMatch (net tp info))
        (traverseAll np net tp iter choose children s).1) ∧
    ((traverse np net tp iter choose (.decision tp info children) s).1.getD tp 0 =
      dot (regretMatch (net tp info))
        ((traverseAll np net tp iter choose children s).1.map (fun v => v.getD tp 0))) ∧
    ((traverse np net tp iter choose (.decision tp info children) s).2.advantage_buffers =
      (traverseAll np net tp iter choose children s).2.advantage_buffers.set tp
        (((traverseAll np net tp iter choose children s).2.advantage_buffers.getD tp
            (ReservoirBuffer.empty AdvantageRecord 0)).offer
          ⟨info,
            ((traverseAll np net tp iter choose children s).1.map
              (fun v => v.getD tp 0)).map
              (fun x => x - dot (regretMatch (net tp info))
                ((traverseAll np net tp iter choose children s).1.map
                  (fun v => v.getD tp 0))),
            iter, tp⟩
          ((traverseAll np net tp iter choose children s).2.draws.headD 0))) ∧
    ((traverse np net tp iter choose (.decision tp info children) s).2.strategy_buffer =
      (traverseAll np net tp iter choose children s).2.strategy_buffer) ∧
    (dot (regretMatch (net tp info))
      (((traverseAll np net tp iter choose children s).1.map (fun v => v.getD tp 0)).map
        (fun x => x - dot (regretMatch (net tp info))
          ((traverseAll np net tp iter choose children s).1.map (fun v => v.getD tp 0)))) = 0) := by
  have hkey : traverse np net tp iter choose (.decision tp info children) s =
      (weightedValues np (regretMatch (net tp info))
          (traverseAll np net tp iter choose children s).1,
       TravState.mk
         ((traverseAll np net tp iter choose children s).2.advantage_buffers.set tp
           (((traverseAll np net tp iter choose children s).2.advantage_buffers.getD tp
               (ReservoirBuffer.empty AdvantageRecord 0)).offer
             ⟨info,
               ((traverseAll np net tp iter choose children s).1.map
                 (fun v => v.getD tp 0)).map
                 (fun x => x - dot (regretMatch (net tp info))
                   ((traverseAll np net tp iter choose children s).1.map
                     (fun v => v.getD tp 0))),
               iter, tp⟩
             ((traverseAll np net tp iter choose children s).2.draws.headD 0)))
         (traverseAll np net tp iter choose children s).2.strategy_buffer
         (traverseAll np net tp iter choose children s).2.draws.tail) := by
    simp [traverse, TravState.nextDraw]
  have hlens : (regretMatch (net tp info)).length =
      ((traverseAll np net tp iter choose children s).1.map (fun v => v.getD tp 0)).length := by
    rw [regretMatch_length, hlen, List.length_map,
      traverseAll_length np net tp iter choose children s]
  have hsum1 : (regretMatch (net tp info)).sum = 1 := by
    apply regretMatch_sum
    intro hnil
    rw [hnil] at hlen
    exact hne (List.length_eq_zero.mp hlen.symm)
  have hzero : dot (regretMatch (net tp info))
      (((traverseAll np net tp iter choose children s).1.map (fun v => v.getD tp 0)).map
        (fun x => x - dot (regretMatch (net tp info))
          ((traverseAll np net tp iter choose children s).1.map
            (fun v => v.getD tp 0)))) = 0 := by
    rw [dot_map_sub _ _ _ hlens, hsum1, mul_one, sub_self]
  refine ⟨traverseAll_length np net tp iter choose children s, ?_, ?_, ?_, ?_, hzero⟩
  · rw [hkey]
  · rw [hkey]
    show (weightedValues np (regretMatch (net tp info))
      (traverseAll np net tp iter choose children s).1).getD tp 0 = _
    unfold weightedValues
    rw [getD_range_map np tp _ htp, dot_zipWith_getD]
  · rw [hkey]
  · rw [hkey]

/-- C2 witness: the two-action one-decision-node game — both terminal
children are visited. -/
theorem claim_C2_witness :
    0 < 2 ∧
    ([GameNode.terminal [(1 : ℚ), -1], GameNode.terminal [(-1 : ℚ), 1]] ≠ []) ∧
    (((fun _ (_ : List ℚ) => [(1 : ℚ), 1]) 0 ([] : List ℚ)).length =
      [GameNode.terminal [(1 : ℚ), -1], GameNode.terminal [(-1 : ℚ), 1]].length) ∧
    ((traverseAll 2 (fun _ _ => [(1 : ℚ), 1]) 0 1 (fun _ => 0)
        [GameNode.terminal [(1 : ℚ), -1], GameNode.terminal [(-1 : ℚ), 1]]
        (TravState.mk [] (ReservoirBuffer.empty StrategyRecord 0) [])).1.length =
      [GameNode.terminal [(1 : ℚ), -1], GameNode.terminal [(-1 : ℚ), 1]].length) := by
  refine ⟨by decide, by simp, rfl, ?_⟩
  exact (claim_C2 2 (fun _ _ => [(1 : ℚ), 1]) 0 1 (fun _ => 0) []
    [GameNode.terminal [(1 : ℚ), -1], GameNode.terminal [(-1 : ℚ), 1]]
    (TravState.mk [] (ReservoirBuffer.empty StrategyRecord 0) [])
    (by decide) (by simp) rfl).1

end DeepCFR
